import Mathlib

/-!
Verification development for the RegWatch repository.

The repository snapshot under src/ holds the scraping dashboard (app.py).
Python strings are modelled as lists of characters (Text), Python ints as
Lean integers, and exceptions of external libraries as explicit outcome
values.  The PDF version-diff engine described by the design document
(Chunker, Embedder, Similarity Index, Change Detector) lives in a file
variant that is absent from src/; those components are modelled from the
specification text, as flagged in their doc comments.
-/

/-- A Python str, modelled as its list of characters. -/
abbrev Text := List Char

/-- The whitespace class used by app.py's regexes and str.strip
(space, tab, newline, carriage return, vertical tab, form feed). -/
def isSpaceChar (c : Char) : Bool :=
  c == ' ' || c == '\t' || c == '\n' || c == '\r' || c == '\x0b' || c == '\x0c'

/-- Auxiliary state machine for the substitution step of
app.py's clean_text, replacing each maximal whitespace run by a single
space.  The Boolean flag records whether we are inside a run whose
replacement space has already been emitted. -/
def collapseAux : Bool → Text → Text
  | _, [] => []
  | inRun, c :: cs =>
    if isSpaceChar c then
      if inRun then collapseAux true cs
      else ' ' :: collapseAux true cs
    else c :: collapseAux false cs

/-- The whitespace-run collapsing substitution of app.py's clean_text. -/
def collapse (s : Text) : Text := collapseAux false s

/-- Drop leading whitespace. -/
def trimL (s : Text) : Text := s.dropWhile isSpaceChar

/-- Drop trailing whitespace. -/
def trimR (s : Text) : Text := (s.reverse.dropWhile isSpaceChar).reverse

/-- Python str.strip: drop leading and trailing whitespace. -/
def trim (s : Text) : Text := trimR (trimL s)

/-- app.py line 93: collapse every whitespace run to one space, then strip. -/
def clean_text (s : Text) : Text := trim (collapse s)

/-- Two adjacent characters are never both whitespace. -/
def noRun (a b : Char) : Prop := ¬(isSpaceChar a = true ∧ isSpaceChar b = true)

/-- Outcome of a call into an external Python library: a returned value, or a
raised exception. -/
inductive PyRes (α : Type) where
  | ok : α → PyRes α
  | exn : PyRes α
deriving DecidableEq

/-- Python slicing l[:k] for an arbitrary integer bound: a nonnegative bound
keeps the first k elements, a negative bound drops the last |k| elements
(clamped at zero). -/
def pySlice {α : Type} (k : Int) (l : List α) : List α :=
  if 0 ≤ k then l.take k.toNat else l.take (l.length - (-k).toNat)

/-- app.py lines 188-193: the pypdf page loop collects page texts until the
first page whose extraction raises (break); a page returning None
contributes the empty string. -/
def pdfPageParts : List (PyRes (Option Text)) → List Text
  | [] => []
  | PyRes.ok o :: rest => o.getD [] :: pdfPageParts rest
  | PyRes.exn :: _ => []

/-- Python " ".join(parts). -/
def joinSpace (parts : List Text) : Text := List.intercalate [' '] parts

/-- app.py lines 185-198: the pypdf attempt of pdf_bytes_to_text.  Returns
some txt when that attempt returns (cleaned text longer than 80), none when
control falls through to the pdfminer fallback (pypdf missing, the reader
raised, or the cleaned text was too short). -/
def pypdfCandidate (havePypdf : Bool) (readerPages : PyRes (List (PyRes (Option Text))))
    (maxPages : Int) : Option Text :=
  if havePypdf then
    match readerPages with
    | PyRes.exn => none
    | PyRes.ok pages =>
      let txt := clean_text (joinSpace (pdfPageParts (pySlice maxPages pages)))
      if 80 < txt.length then some txt else none
  else none

/-- app.py lines 183-206: pdf_bytes_to_text, with the outcomes of the two
external extraction libraries (pypdf reader pages, pdfminer full text)
passed explicitly.  All library failures are caught, so the function is
total. -/
def pdf_bytes_to_text (havePypdf havePdfminer : Bool)
    (readerPages : PyRes (List (PyRes (Option Text)))) (minerText : PyRes Text)
    (maxPages maxChars : Int) : Text :=
  match pypdfCandidate havePypdf readerPages maxPages with
  | some txt => pySlice maxChars txt
  | none =>
    if havePdfminer then
      match minerText with
      | PyRes.ok t => pySlice maxChars (clean_text t)
      | PyRes.exn => []
    else []

/-- A collected feed item.  app.py's normalize builds a dict of ten fields;
only the url (the deduplication key and the falsiness guard) and the title
take part in the verified claims, the remaining fields being computations of
external libraries (hashlib, dateutil). -/
structure Item where
  url : Text
  title : Text
deriving DecidableEq

/-- A parsed RSS feed entry (the fields of app.py's fetch_rss_one that
reach normalize). -/
structure Entry where
  title : Text
  link : Text
deriving DecidableEq

/-- app.py lines 135-144: normalize returns an empty (falsy) dict when the
url is empty, which callers drop; modelled as an Option. -/
def normalizeItem (title url : Text) : Option Item :=
  if url = [] then none else some ⟨url, clean_text title⟩

/-- app.py line 64. -/
def MAX_PER_SOURCE : Nat := 60

/-- The seen-set pass of the Python idiom
uniq={}; [uniq.setdefault(i["url"], i) for i in items]; list(uniq.values()):
an insertion-ordered dict keeps the first item for each url. -/
def dedupAux : List Text → List Item → List Item
  | _, [] => []
  | seen, i :: is =>
    if i.url ∈ seen then dedupAux seen is
    else i :: dedupAux (i.url :: seen) is

/-- Deduplication by url, keeping first occurrences, as performed at the end
of every collector and of fetch_all. -/
def dedupByUrl (l : List Item) : List Item := dedupAux [] l

/-- The scraping loop shape `items.append(x); if len(items) >= cap: break`:
the length test runs after each append, so a loop entered with a full list
still appends one element before breaking. -/
def appendCapped (cap : Nat) (items raw : List Item) : List Item :=
  items ++ raw.take (if cap ≤ items.length then 1 else cap - items.length)

/-- app.py lines 261-275: fetch_rss_one normalizes the first MAX_PER_SOURCE
feed entries, dropping the falsy ones.  The raw entries stand in for the
fetched and parsed feed. -/
def fetch_rss_one (entries : List Entry) : List Item :=
  (entries.take MAX_PER_SOURCE).filterMap fun e => normalizeItem e.title e.link

/-- app.py lines 277-281: concatenate the per-feed results, deduplicate by
url, truncate to MAX_PER_SOURCE. -/
def fetch_rss_multi (feeds : List (List Entry)) : List Item :=
  (dedupByUrl (feeds.map fetch_rss_one).flatten).take MAX_PER_SOURCE

/-- app.py lines 283-299: single capped scraping loop, then dedup and
truncation.  The raw list stands in for the filtered anchor candidates of
the scraped page. -/
def fetch_bmuv_html_fallback (raw : List Item) : List Item :=
  (dedupByUrl (appendCapped MAX_PER_SOURCE [] raw)).take MAX_PER_SOURCE

/-- app.py lines 301-317: one capped loop per fetched page (two pages), a
shared items list, then dedup and truncation. -/
def fetch_cbp_html_fallback (raw1 raw2 : List Item) : List Item :=
  (dedupByUrl (appendCapped MAX_PER_SOURCE
    (appendCapped MAX_PER_SOURCE [] raw1) raw2)).take MAX_PER_SOURCE

/-- app.py lines 319-349: capped table-row loop, a capped link-fallback loop
entered only when fewer than 8 rows were found, then dedup and truncation. -/
def fetch_motie_generic (rawTr rawLink : List Item) : List Item :=
  let items1 := appendCapped MAX_PER_SOURCE [] rawTr
  let items2 := if items1.length < 8 then appendCapped MAX_PER_SOURCE items1 rawLink else items1
  (dedupByUrl items2).take MAX_PER_SOURCE

/-- app.py lines 352-369: single capped loop, dedup, truncation. -/
def fetch_bund_aktuelles (raw : List Item) : List Item :=
  (dedupByUrl (appendCapped MAX_PER_SOURCE [] raw)).take MAX_PER_SOURCE

/-- app.py lines 372-388: single capped loop, dedup, truncation. -/
def fetch_cbp_bulletins (raw : List Item) : List Item :=
  (dedupByUrl (appendCapped MAX_PER_SOURCE [] raw)).take MAX_PER_SOURCE

/-- app.py lines 391-407: single capped loop, dedup, truncation. -/
def fetch_doe_newsroom (raw : List Item) : List Item :=
  (dedupByUrl (appendCapped MAX_PER_SOURCE [] raw)).take MAX_PER_SOURCE

/-- app.py lines 410-433: capped article loop, a capped link-fallback loop
entered only when fewer than 10 articles were found, then dedup and
truncation. -/
def fetch_eea_analysis (rawArticles rawLinks : List Item) : List Item :=
  let items1 := appendCapped MAX_PER_SOURCE [] rawArticles
  let items2 := if items1.length < 10 then appendCapped MAX_PER_SOURCE items1 rawLinks else items1
  (dedupByUrl items2).take MAX_PER_SOURCE

/-- The network-derived inputs of the collectors: for each source the
candidate items (or feed entries) its scraping produces, which lie outside
the pure pipeline. -/
structure Net where
  eeaArticles : List Item
  eeaLinks : List Item
  cbpFeeds : List (List Entry)
  cbpFallback1 : List Item
  cbpFallback2 : List Item
  bmuvEntries : List Entry
  bmuvFallback : List Item
  motieTr : List Item
  motieLink : List Item
  bundRaw : List Item
  cbpBullRaw : List Item
  doeRaw : List Item

/-- app.py lines 436-458: the dispatch loop of fetch_all over SOURCES, in
source order, honouring the selected ids; the rss branches fall back to the
html collectors when the feed yields nothing (Python `r or fallback`). -/
def collectedItems (selected : List String) (net : Net) : List Item :=
  (if "eea" ∈ selected then fetch_eea_analysis net.eeaArticles net.eeaLinks else [])
    ++ (if "cbp" ∈ selected then
          (let r := fetch_rss_multi net.cbpFeeds
           if r = [] then fetch_cbp_html_fallback net.cbpFallback1 net.cbpFallback2 else r)
        else [])
    ++ (if "bmuv" ∈ selected then
          (let r := fetch_rss_one net.bmuvEntries
           if r = [] then fetch_bmuv_html_fallback net.bmuvFallback else r)
        else [])
    ++ (if "motie" ∈ selected then fetch_motie_generic net.motieTr net.motieLink else [])
    ++ (if "bund" ∈ selected then fetch_bund_aktuelles net.bundRaw else [])
    ++ (if "cbp_bull" ∈ selected then fetch_cbp_bulletins net.cbpBullRaw else [])
    ++ (if "doe" ∈ selected then fetch_doe_newsroom net.doeRaw else [])

/-- app.py lines 459-461: fetch_all deduplicates the concatenated collector
outputs by url. -/
def fetch_all (selected : List String) (net : Net) : List Item :=
  dedupByUrl (collectedItems selected net)

/-- Modelled from the spec: the Chunker (§4.1) is part of the PDF
version-diff engine, whose file variant is absent from src/.  State machine
splitting the text at every blank-line boundary, a boundary being a maximal
whitespace run containing at least one newline.  cur holds the current unit
reversed, pend the pending whitespace run reversed, sawNL whether that run
contains a newline. -/
def splitParasAux (cur pend : Text) (sawNL : Bool) : Text → List Text
  | [] => if sawNL then [cur.reverse, []] else [(pend ++ cur).reverse]
  | c :: cs =>
    if isSpaceChar c then splitParasAux cur (c :: pend) (sawNL || c == '\n') cs
    else if sawNL then cur.reverse :: splitParasAux [ c ] [] false cs
    else splitParasAux (c :: (pend ++ cur)) [] false cs

/-- Modelled from the spec: splitting on blank-line boundaries (§4.1). -/
def splitParagraphs (s : Text) : List Text := splitParasAux [] [] false s

/-- Modelled from the spec: Chunker.split (§4.1) — split on blank-line
boundaries, trim each candidate unit, discard units whose trimmed length is
at most minLength, preserving order. -/
def split (raw : Text) (minLength : Nat) : List Text :=
  ((splitParagraphs raw).map trim).filter fun u => decide (minLength < u.length)

/-- Modelled from the spec: the output record of the Change Detector (§3,
§6) — position of the chunk in the new document, its text, its best-match
score. -/
structure ChangeRecord where
  position : Nat
  text : Text
  score : ℚ
deriving DecidableEq

/-- Modelled from the spec: the error taxonomy of §7. -/
inductive DetectError where
  | invalidConfiguration
  | modelUnavailable
deriving DecidableEq

/-- Modelled from the spec: the sentinel no-match score of §4.3, the minimum
possible cosine similarity. -/
def noMatchScore : ℚ := -1

/-- Modelled from the spec: Similarity Index query (§4.3) — the maximum
similarity of the candidate against every index entry, the sentinel on an
empty index.  The similarity function is the abstract boundary of §4.2 (the
embedding model and its cosine comparison are external capabilities). -/
def queryBestMatch {V : Type} (sim : V → V → ℚ) (index : List V) (c : V) : ℚ :=
  match index with
  | [] => noMatchScore
  | v :: vs => (vs.map (sim c)).foldl max (sim c v)

/-- Modelled from the spec: step 5 of §4.4 — score every new chunk against
the index, in original order, recording positions from the given start. -/
def scoreChunks {V : Type} (E : Text → V) (sim : V → V → ℚ) (index : List V) :
    Nat → List Text → List ChangeRecord
  | _, [] => []
  | i, c :: cs =>
    ⟨i, c, queryBestMatch sim index (E c)⟩ :: scoreChunks E sim index (i + 1) cs

/-- Modelled from the spec: detectChanges (§4.4) — reject an out-of-range
threshold (§6, §7), chunk both documents, build the index from the old
chunks' embeddings, score each new chunk, and keep exactly the chunks whose
best-match score is strictly below the threshold, in document order. -/
def detectChanges {V : Type} (E : Text → V) (sim : V → V → ℚ)
    (oldDocText newDocText : Text) (minChunkLength : Nat) (threshold : ℚ) :
    Except DetectError (List ChangeRecord) :=
  if threshold < 0 ∨ 1 < threshold then Except.error DetectError.invalidConfiguration
  else
    Except.ok ((scoreChunks E sim ((split oldDocText minChunkLength).map E) 0
      (split newDocText minChunkLength)).filter fun r => decide (r.score < threshold))

-- ------------------------------------------------------------------
-- theorems
-- ------------------------------------------------------------------

theorem collapseAux_space_mem (s : Text) :
    ∀ (b : Bool) (c : Char), c ∈ collapseAux b s → isSpaceChar c = true → c = ' ' := by
  induction s with
  | nil => intro b c h; simp [collapseAux] at h
  | cons d ds ih =>
    intro b c h hc
    by_cases hd : isSpaceChar d = true
    · cases b with
      | true =>
        simp only [collapseAux, hd, if_true] at h
        exact ih true c h hc
      | false =>
        simp only [collapseAux, hd, if_true] at h
        rcases List.mem_cons.mp h with h1 | h1
        · exact h1
        · exact ih true c h1 hc
    · simp only [collapseAux, hd, if_false, Bool.false_eq_true] at h
      rcases List.mem_cons.mp h with h1 | h1
      · exact absurd (h1 ▸ hc) hd
      · exact ih false c h1 hc

theorem collapseAux_head_true (s : Text) :
    ∀ c : Char, (collapseAux true s).head? = some c → isSpaceChar c = false := by
  induction s with
  | nil => intro c h; simp [collapseAux] at h
  | cons d ds ih =>
    intro c h
    by_cases hd : isSpaceChar d = true
    · simp only [collapseAux, hd, if_true] at h
      exact ih c h
    · simp only [collapseAux, hd, if_false, Bool.false_eq_true, List.head?_cons] at h
      cases h
      exact Bool.eq_false_iff.mpr hd

theorem collapseAux_chain (s : Text) : ∀ b, List.Chain' noRun (collapseAux b s) := by
  induction s with
  | nil => intro b; simp [collapseAux]
  | cons d ds ih =>
    intro b
    by_cases hd : isSpaceChar d = true
    · cases b with
      | true => simpa only [collapseAux, hd, if_true] using ih true
      | false =>
        simp only [collapseAux, hd, if_true]
        refine List.chain'_cons'.mpr ⟨?_, ih true⟩
        intro c hc
        have := collapseAux_head_true ds c hc
        intro hcontra
        rw [this] at hcontra
        exact Bool.false_ne_true hcontra.2
    · simp only [collapseAux, hd, if_false, Bool.false_eq_true]
      refine List.chain'_cons'.mpr ⟨?_, ih false⟩
      intro c _
      intro hcontra
      exact hd hcontra.1

theorem collapseAux_fix (s : Text)
    (hsp : ∀ c ∈ s, isSpaceChar c = true → c = ' ')
    (hch : List.Chain' noRun s) :
    collapseAux false s = s ∧
      ((∀ c, s.head? = some c → isSpaceChar c = false) → collapseAux true s = s) := by
  induction s with
  | nil => exact ⟨rfl, fun _ => rfl⟩
  | cons d ds ih =>
    have hsp' : ∀ c ∈ ds, isSpaceChar c = true → c = ' ' :=
      fun c hc => hsp c (List.mem_cons_of_mem d hc)
    have hch' : List.Chain' noRun ds := (List.chain'_cons'.mp hch).2
    have ihds := ih hsp' hch'
    constructor
    · by_cases hd : isSpaceChar d = true
      · have hd' : d = ' ' := hsp d (List.mem_cons_self d ds) hd
        simp only [collapseAux, hd, if_true]
        have hdh : ∀ c, ds.head? = some c → isSpaceChar c = false := by
          intro c hc
          have hnr := (List.chain'_cons'.mp hch).1 c hc
          by_contra hcc
          exact hnr ⟨hd, Bool.not_eq_false _ |>.mp hcc⟩
        rw [ihds.2 hdh, hd']
        simp
      · simp only [collapseAux, hd, if_false, Bool.false_eq_true]
        rw [ihds.1]
    · intro hhead
      have hd : isSpaceChar d = false := hhead d rfl
      simp only [collapseAux, hd, Bool.false_eq_true, if_false]
      rw [ihds.1]

theorem dropWhile_head_false (p : Char → Bool) (s : Text) :
    ∀ c : Char, (s.dropWhile p).head? = some c → p c = false := by
  induction s with
  | nil => intro c h; simp [List.dropWhile] at h
  | cons d ds ih =>
    intro c h
    by_cases hd : p d = true
    · rw [List.dropWhile_cons, if_pos hd] at h
      exact ih c h
    · rw [List.dropWhile_cons, if_neg (by simp [hd])] at h
      simp only [List.head?_cons] at h
      cases h
      exact Bool.eq_false_iff.mpr hd

theorem dropWhile_chain (R : Char → Char → Prop) (p : Char → Bool) (s : Text)
    (h : List.Chain' R s) : List.Chain' R (s.dropWhile p) := by
  induction s with
  | nil => simp
  | cons d ds ih =>
    by_cases hd : p d = true
    · rw [List.dropWhile_cons, if_pos hd]
      exact ih (List.chain'_cons'.mp h).2
    · rw [List.dropWhile_cons, if_neg (by simp [hd])]
      exact h

theorem dropWhile_mem (p : Char → Bool) (s : Text) (c : Char)
    (h : c ∈ s.dropWhile p) : c ∈ s := by
  induction s with
  | nil => simp [List.dropWhile] at h
  | cons d ds ih =>
    by_cases hd : p d = true
    · rw [List.dropWhile_cons, if_pos hd] at h
      exact List.mem_cons_of_mem d (ih h)
    · rw [List.dropWhile_cons, if_neg (by simp [hd])] at h
      exact h

theorem trimR_head (m : Text) (c : Char) (h : (trimR m).head? = some c) :
    m.head? = some c := by
  have hsplit : m.reverse.takeWhile isSpaceChar ++ m.reverse.dropWhile isSpaceChar
      = m.reverse := List.takeWhile_append_dropWhile isSpaceChar m.reverse
  have hm : m = trimR m ++ (m.reverse.takeWhile isSpaceChar).reverse := by
    calc m = m.reverse.reverse := (List.reverse_reverse m).symm
    _ = (m.reverse.takeWhile isSpaceChar ++ m.reverse.dropWhile isSpaceChar).reverse := by
        rw [hsplit]
    _ = trimR m ++ (m.reverse.takeWhile isSpaceChar).reverse := by
        rw [List.reverse_append]; rfl
  rcases htr : trimR m with _ | ⟨x, xs⟩
  · rw [htr] at h; simp at h
  · rw [htr] at h
    simp only [List.head?_cons] at h
    cases h
    rw [hm, htr]
    rfl

theorem trim_head (s : Text) (c : Char) (h : (trim s).head? = some c) :
    isSpaceChar c = false := by
  have h1 : (trimL s).head? = some c := trimR_head (trimL s) c h
  exact dropWhile_head_false isSpaceChar s c h1

theorem trim_last (s : Text) (c : Char) (h : (trim s).getLast? = some c) :
    isSpaceChar c = false := by
  have h1 : ((trimL s).reverse.dropWhile isSpaceChar).head? = some c := by
    have : (trim s).getLast? = ((trimL s).reverse.dropWhile isSpaceChar).head? := by
      simp [trim, trimR, List.getLast?_reverse]
    rw [this] at h
    exact h
  exact dropWhile_head_false isSpaceChar _ c h1

theorem trim_mem (s : Text) (c : Char) (h : c ∈ trim s) : c ∈ s := by
  have h1 : c ∈ (trimL s).reverse.dropWhile isSpaceChar := by
    simpa [trim, trimR] using h
  have h2 : c ∈ (trimL s).reverse := dropWhile_mem isSpaceChar _ c h1
  have h3 : c ∈ trimL s := List.mem_reverse.mp h2
  exact dropWhile_mem isSpaceChar s c h3

theorem noRun_flip (a b : Char) (h : noRun a b) : noRun b a := by
  intro hc; exact h ⟨hc.2, hc.1⟩

theorem chain_reverse_noRun (s : Text) (h : List.Chain' noRun s) :
    List.Chain' noRun s.reverse := by
  rw [List.chain'_reverse]
  exact h.imp noRun_flip

theorem trim_chain (s : Text) (h : List.Chain' noRun s) :
    List.Chain' noRun (trim s) := by
  have h1 : List.Chain' noRun (trimL s) := dropWhile_chain noRun isSpaceChar s h
  have h2 : List.Chain' noRun ((trimL s).reverse) := chain_reverse_noRun _ h1
  have h3 : List.Chain' noRun ((trimL s).reverse.dropWhile isSpaceChar) :=
    dropWhile_chain noRun isSpaceChar _ h2
  exact chain_reverse_noRun _ h3

theorem trim_fix (s : Text)
    (h1 : ∀ c, s.head? = some c → isSpaceChar c = false)
    (h2 : ∀ c, s.getLast? = some c → isSpaceChar c = false) :
    trim s = s := by
  have htl : trimL s = s := by
    cases s with
    | nil => rfl
    | cons d ds =>
      have hd : isSpaceChar d = false := h1 d rfl
      simp [trimL, List.dropWhile_cons, hd]
  have htr : trimR s = s := by
    rcases hs : s.reverse with _ | ⟨x, xs⟩
    · have : s = [] := by
        have := congrArg List.reverse hs
        simpa using this
      simp [trimR, this]
    · have hx : s.getLast? = some x := by
        rw [← List.head?_reverse, hs]; rfl
      have hxs : isSpaceChar x = false := h2 x hx
      simp only [trimR, hs, List.dropWhile_cons, hxs, Bool.false_eq_true, if_false]
      rw [← hs, List.reverse_reverse]
  rw [trim, htl, htr]

/-- C9: clean_text is idempotent, its result carries no leading or trailing
whitespace, and no two consecutive characters of the result are both
whitespace. -/
theorem clean_text_idempotent (s : Text) :
    clean_text (clean_text s) = clean_text s
    ∧ (∀ c, (clean_text s).head? = some c → isSpaceChar c = false)
    ∧ (∀ c, (clean_text s).getLast? = some c → isSpaceChar c = false)
    ∧ List.Chain' noRun (clean_text s) := by
  have hhead : ∀ c, (clean_text s).head? = some c → isSpaceChar c = false :=
    fun c h => trim_head (collapse s) c h
  have hlast : ∀ c, (clean_text s).getLast? = some c → isSpaceChar c = false :=
    fun c h => trim_last (collapse s) c h
  have hchain : List.Chain' noRun (clean_text s) :=
    trim_chain (collapse s) (collapseAux_chain s false)
  refine ⟨?_, hhead, hlast, hchain⟩
  have hsp : ∀ c ∈ clean_text s, isSpaceChar c = true → c = ' ' := by
    intro c hc
    have : c ∈ collapse s := trim_mem (collapse s) c hc
    exact collapseAux_space_mem s false c this
  have hcoll : collapse (clean_text s) = clean_text s :=
    (collapseAux_fix (clean_text s) hsp hchain).1
  show trim (collapse (clean_text s)) = clean_text s
  rw [hcoll]
  exact trim_fix (clean_text s) hhead hlast

theorem pySlice_length_le {α : Type} (k : Int) (l : List α) (hk : 0 ≤ k) :
    ((pySlice k l).length : Int) ≤ k := by
  simp only [pySlice, if_pos hk]
  have h1 : (l.take k.toNat).length ≤ k.toNat := List.length_take_le _ _
  calc ((l.take k.toNat).length : Int) ≤ (k.toNat : Int) := by exact_mod_cast h1
    _ = k := Int.toNat_of_nonneg hk

/-- C8 (amended): for every extraction outcome and every nonnegative
max_chars, pdf_bytes_to_text returns a text of length at most max_chars, and
when neither the pypdf attempt nor the pdfminer fallback yields text it
returns the empty string.  (The function is total, so it never raises.) -/
theorem pdf_bytes_to_text_bounded (hp hm : Bool)
    (rp : PyRes (List (PyRes (Option Text)))) (mt : PyRes Text)
    (maxPages maxChars : Int) (h : 0 ≤ maxChars) :
    ((pdf_bytes_to_text hp hm rp mt maxPages maxChars).length : Int) ≤ maxChars
    ∧ (pypdfCandidate hp rp maxPages = none → (hm = false ∨ mt = PyRes.exn) →
        pdf_bytes_to_text hp hm rp mt maxPages maxChars = []) := by
  constructor
  · unfold pdf_bytes_to_text
    cases hc : pypdfCandidate hp rp maxPages with
    | some txt => exact pySlice_length_le maxChars txt h
    | none =>
      cases hm with
      | false => simpa using h
      | true =>
        cases mt with
        | ok t => exact pySlice_length_le maxChars (clean_text t) h
        | exn => simpa using h
  · intro hc hnone
    unfold pdf_bytes_to_text
    rw [hc]
    rcases hnone with h1 | h1
    · rw [h1]; rfl
    · cases hm with
      | false => rfl
      | true => rw [h1]; rfl

theorem pdf_bytes_to_text_bounded_witness :
    ((pdf_bytes_to_text false false PyRes.exn PyRes.exn 12 40000).length : Int) ≤ 40000
    ∧ (pypdfCandidate false PyRes.exn 12 = none →
        (false = false ∨ (PyRes.exn : PyRes Text) = PyRes.exn) →
        pdf_bytes_to_text false false PyRes.exn PyRes.exn 12 40000 = []) :=
  pdf_bytes_to_text_bounded false false PyRes.exn PyRes.exn 12 40000 (by norm_num)

/-- C8 counterexample: with max_chars = -1, the pdfminer path applied to the
extracted text "ab" returns "a" (Python txt[:-1]), a string of positive
length; the claimed bound fails for a negative max_chars argument. -/
theorem pdf_bytes_to_text_negative_cex :
    pdf_bytes_to_text false true PyRes.exn (PyRes.ok [ 'a', 'b' ]) 12 (-1) = [ 'a' ]
    ∧ ¬ (((pdf_bytes_to_text false true PyRes.exn
        (PyRes.ok [ 'a', 'b' ]) 12 (-1)).length : Int) ≤ -1) := by
  constructor
  · rfl
  · decide

theorem dedupAux_mem_not_seen (l : List Item) :
    ∀ (seen : List Text) (i : Item), i ∈ dedupAux seen l → i.url ∉ seen := by
  induction l with
  | nil => intro seen i h; simp [dedupAux] at h
  | cons a as ih =>
    intro seen i h
    by_cases ha : a.url ∈ seen
    · simp only [dedupAux, if_pos ha] at h
      exact ih seen i h
    · simp only [dedupAux, if_neg ha] at h
      rcases List.mem_cons.mp h with h1 | h1
      · subst h1; exact ha
      · have := ih (a.url :: seen) i h1
        exact fun hc => this (List.mem_cons_of_mem _ hc)

theorem dedupAux_pairwise (l : List Item) :
    ∀ seen : List Text, List.Pairwise (fun a b => a.url ≠ b.url) (dedupAux seen l) := by
  induction l with
  | nil => intro seen; simp [dedupAux]
  | cons a as ih =>
    intro seen
    by_cases ha : a.url ∈ seen
    · simp only [dedupAux, if_pos ha]
      exact ih seen
    · simp only [dedupAux, if_neg ha]
      refine List.pairwise_cons.mpr ⟨?_, ih (a.url :: seen)⟩
      intro b hb
      have := dedupAux_mem_not_seen as (a.url :: seen) b hb
      intro hc
      exact this (hc ▸ List.mem_cons_self _ _)

theorem dedupAux_first_occurrence (l : List Item) :
    ∀ (seen : List Text) (i : Item), i ∈ dedupAux seen l →
      ∃ pre suf, l = pre ++ i :: suf ∧ ∀ j ∈ pre, j.url ≠ i.url := by
  induction l with
  | nil => intro seen i h; simp [dedupAux] at h
  | cons a as ih =>
    intro seen i h
    by_cases ha : a.url ∈ seen
    · simp only [dedupAux, if_pos ha] at h
      obtain ⟨pre, suf, heq, hpre⟩ := ih seen i h
      have hiu : i.url ∉ seen := dedupAux_mem_not_seen as seen i h
      refine ⟨a :: pre, suf, by rw [List.cons_append, heq], ?_⟩
      intro j hj
      rcases List.mem_cons.mp hj with h1 | h1
      · subst h1; intro hc; exact hiu (hc ▸ ha)
      · exact hpre j h1
    · simp only [dedupAux, if_neg ha] at h
      rcases List.mem_cons.mp h with h1 | h1
      · subst h1; exact ⟨[], as, rfl, by simp⟩
      · obtain ⟨pre, suf, heq, hpre⟩ := ih (a.url :: seen) i h1
        have hiu : i.url ∉ a.url :: seen := dedupAux_mem_not_seen as _ i h1
        refine ⟨a :: pre, suf, by rw [List.cons_append, heq], ?_⟩
        intro j hj
        rcases List.mem_cons.mp hj with h2 | h2
        · subst h2
          intro hc
          exact hiu (by rw [← hc]; exact List.mem_cons_self _ _)
        · exact hpre j h2

theorem fetch_rss_one_length (entries : List Entry) :
    (fetch_rss_one entries).length ≤ MAX_PER_SOURCE := by
  calc (fetch_rss_one entries).length
      ≤ (entries.take MAX_PER_SOURCE).length := List.length_filterMap_le _ _
    _ ≤ MAX_PER_SOURCE := List.length_take_le _ _

/-- C10: the list returned by fetch_all carries pairwise-distinct urls,
keeping for each url the first occurrence from the concatenated collector
outputs, and every per-source collector yields at most MAX_PER_SOURCE = 60
items whatever its scraped input. -/
theorem fetch_all_unique_urls (selected : List String) (net : Net) :
    List.Pairwise (fun a b => a.url ≠ b.url) (fetch_all selected net)
    ∧ (∀ i ∈ fetch_all selected net, ∃ pre suf,
        collectedItems selected net = pre ++ i :: suf ∧ ∀ j ∈ pre, j.url ≠ i.url)
    ∧ (fetch_eea_analysis net.eeaArticles net.eeaLinks).length ≤ MAX_PER_SOURCE
    ∧ (fetch_rss_multi net.cbpFeeds).length ≤ MAX_PER_SOURCE
    ∧ (fetch_cbp_html_fallback net.cbpFallback1 net.cbpFallback2).length ≤ MAX_PER_SOURCE
    ∧ (fetch_rss_one net.bmuvEntries).length ≤ MAX_PER_SOURCE
    ∧ (fetch_bmuv_html_fallback net.bmuvFallback).length ≤ MAX_PER_SOURCE
    ∧ (fetch_motie_generic net.motieTr net.motieLink).length ≤ MAX_PER_SOURCE
    ∧ (fetch_bund_aktuelles net.bundRaw).length ≤ MAX_PER_SOURCE
    ∧ (fetch_cbp_bulletins net.cbpBullRaw).length ≤ MAX_PER_SOURCE
    ∧ (fetch_doe_newsroom net.doeRaw).length ≤ MAX_PER_SOURCE := by
  refine ⟨dedupAux_pairwise _ [],
    fun i h => dedupAux_first_occurrence _ [] i h,
    List.length_take_le _ _, List.length_take_le _ _, List.length_take_le _ _,
    fetch_rss_one_length net.bmuvEntries,
    List.length_take_le _ _, List.length_take_le _ _, List.length_take_le _ _,
    List.length_take_le _ _, List.length_take_le _ _⟩

theorem le_foldl_max (a : ℚ) (l : List ℚ) : a ≤ l.foldl max a := by
  induction l generalizing a with
  | nil => exact le_refl a
  | cons x xs ih => exact le_trans (le_max_left a x) (ih (max a x))

theorem mem_le_foldl_max (l : List ℚ) (x : ℚ) (hx : x ∈ l) :
    ∀ a : ℚ, x ≤ l.foldl max a := by
  induction l with
  | nil => cases hx
  | cons y ys ih =>
    intro a
    rcases List.mem_cons.mp hx with h1 | h1
    · subst h1
      exact le_trans (le_max_right a x) (le_foldl_max _ ys)
    · exact ih h1 (max a y)

theorem queryBestMatch_ge {V : Type} (sim : V → V → ℚ) (index : List V) (c v : V)
    (hv : v ∈ index) : sim c v ≤ queryBestMatch sim index c := by
  cases index with
  | nil => cases hv
  | cons w ws =>
    rcases List.mem_cons.mp hv with h1 | h1
    · subst h1
      exact le_foldl_max _ _
    · exact mem_le_foldl_max _ _ (List.mem_map_of_mem _ h1) _

theorem scoreChunks_mem {V : Type} (E : Text → V) (sim : V → V → ℚ) (index : List V)
    (cs : List Text) : ∀ (i : Nat) (r : ChangeRecord), r ∈ scoreChunks E sim index i cs →
      i ≤ r.position ∧ r.score = queryBestMatch sim index (E r.text)
        ∧ cs.get? (r.position - i) = some r.text ∧ r.text ∈ cs := by
  induction cs with
  | nil => intro i r h; simp [scoreChunks] at h
  | cons c cs' ih =>
    intro i r h
    rcases List.mem_cons.mp h with h1 | h1
    · subst h1
      exact ⟨le_refl i, rfl, by simp, List.mem_cons_self _ _⟩
    · obtain ⟨hle, hs, hg, hm⟩ := ih (i + 1) r h1
      refine ⟨le_trans (Nat.le_succ i) hle, hs, ?_, List.mem_cons_of_mem _ hm⟩
      have hpos : r.position - i = (r.position - (i + 1)) + 1 := by omega
      rw [hpos]
      simpa using hg

theorem scoreChunks_pairwise {V : Type} (E : Text → V) (sim : V → V → ℚ) (index : List V)
    (cs : List Text) :
    ∀ i, List.Pairwise (fun a b => a.position < b.position) (scoreChunks E sim index i cs) := by
  induction cs with
  | nil => intro i; simp [scoreChunks]
  | cons c cs' ih =>
    intro i
    refine List.pairwise_cons.mpr ⟨?_, ih (i + 1)⟩
    intro r hr
    have h1 := (scoreChunks_mem E sim index cs' (i + 1) r hr).1
    show i < r.position
    omega

theorem scoreChunks_empty_index {V : Type} (E : Text → V) (sim : V → V → ℚ)
    (cs : List Text) :
    ∀ i, (scoreChunks E sim ([] : List V) i cs).map (fun r => r.text) = cs
      ∧ ∀ r ∈ scoreChunks E sim ([] : List V) i cs, r.score = noMatchScore := by
  induction cs with
  | nil =>
    intro i
    refine ⟨rfl, ?_⟩
    intro r h
    simp [scoreChunks] at h
  | cons c cs' ih =>
    intro i
    constructor
    · show c :: (scoreChunks E sim ([] : List V) (i + 1) cs').map (fun r => r.text) = c :: cs'
      rw [(ih (i + 1)).1]
    · intro r h
      rcases List.mem_cons.mp h with h1 | h1
      · subst h1; rfl
      · exact (ih (i + 1)).2 r h1

theorem detectChanges_ok {V : Type} (E : Text → V) (sim : V → V → ℚ)
    (oldD newD : Text) (m : Nat) (t : ℚ) (h0 : 0 ≤ t) (h1 : t ≤ 1) :
    detectChanges E sim oldD newD m t =
      Except.ok ((scoreChunks E sim ((split oldD m).map E) 0 (split newD m)).filter
        fun r => decide (r.score < t)) := by
  have hc : ¬ (t < 0 ∨ 1 < t) := by
    rintro (hc | hc)
    · exact absurd hc (not_lt.mpr h0)
    · exact absurd hc (not_lt.mpr h1)
  unfold detectChanges
  rw [if_neg hc]

/-- C1: a new chunk is classified as a change exactly when its best-match
score against the old-document index is strictly below the threshold, so
the returned list never contains a record whose score reaches the
threshold. -/
theorem detectChanges_change_iff {V : Type} (E : Text → V) (sim : V → V → ℚ)
    (oldD newD : Text) (m : Nat) (t : ℚ) (h0 : 0 ≤ t) (h1 : t ≤ 1) :
    ∃ rs, detectChanges E sim oldD newD m t = Except.ok rs
      ∧ (∀ r, r ∈ rs ↔
          r ∈ scoreChunks E sim ((split oldD m).map E) 0 (split newD m) ∧ r.score < t)
      ∧ ∀ r ∈ rs, ¬ t ≤ r.score := by
  refine ⟨_, detectChanges_ok E sim oldD newD m t h0 h1, ?_, ?_⟩
  · intro r
    rw [List.mem_filter]
    simp only [decide_eq_true_eq]
  · intro r hr
    rw [List.mem_filter, decide_eq_true_eq] at hr
    exact not_le.mpr hr.2

theorem detectChanges_change_iff_witness :
    ∃ rs, detectChanges (fun _ => (0 : ℚ)) (fun a b : ℚ => a * b) [] [] 0 1 = Except.ok rs
      ∧ (∀ r, r ∈ rs ↔
          r ∈ scoreChunks (fun _ => (0 : ℚ)) (fun a b : ℚ => a * b)
            ((split [] 0).map (fun _ => (0 : ℚ))) 0 (split [] 0) ∧ r.score < 1)
      ∧ ∀ r ∈ rs, ¬ (1 : ℚ) ≤ r.score :=
  detectChanges_change_iff (fun _ => (0 : ℚ)) (fun a b => a * b) [] [] 0 1
    (by decide) (by decide)

/-- C2: the chunker returns exactly the blank-line-split units, trimmed,
with every unit of trimmed length at most minLength discarded; the result
is a sublist of the trimmed units (original order, no reordering or
duplication), and empty input gives the empty sequence (the function is
total, so it never raises). -/
theorem split_chunker_spec (raw : Text) (minLength : Nat) :
    split raw minLength
      = ((splitParagraphs raw).map trim).filter (fun u => decide (minLength < u.length))
    ∧ List.Sublist (split raw minLength) ((splitParagraphs raw).map trim)
    ∧ split [] minLength = [] := by
  refine ⟨rfl, List.filter_sublist _, ?_⟩
  have h0 : (decide (minLength < ([] : Text).length)) = false := by simp
  calc split [] minLength
      = List.filter (fun u => decide (minLength < u.length)) [[]] := rfl
    _ = [] := by rw [List.filter_cons, h0]; rfl

/-- C3: the records come out ordered by original chunk position in the new
document, and each record carries the chunk text at its position together
with that chunk's best-match score against the old-document index. -/
theorem detectChanges_ordered {V : Type} (E : Text → V) (sim : V → V → ℚ)
    (oldD newD : Text) (m : Nat) (t : ℚ) (h0 : 0 ≤ t) (h1 : t ≤ 1) :
    ∃ rs, detectChanges E sim oldD newD m t = Except.ok rs
      ∧ List.Pairwise (fun a b => a.position < b.position) rs
      ∧ ∀ r ∈ rs, (split newD m).get? r.position = some r.text
          ∧ r.score = queryBestMatch sim ((split oldD m).map E) (E r.text) := by
  refine ⟨_, detectChanges_ok E sim oldD newD m t h0 h1, ?_, ?_⟩
  · exact (scoreChunks_pairwise E sim _ _ 0).sublist (List.filter_sublist _)
  · intro r hr
    have hmem := (List.mem_filter.mp hr).1
    obtain ⟨_, hs, hg, _⟩ := scoreChunks_mem E sim _ _ 0 r hmem
    refine ⟨?_, hs⟩
    simpa using hg

theorem detectChanges_ordered_witness :
    ∃ rs, detectChanges (fun _ => (0 : ℚ)) (fun a b : ℚ => a * b) [] [] 0 1 = Except.ok rs
      ∧ List.Pairwise (fun a b => a.position < b.position) rs
      ∧ ∀ r ∈ rs, (split [] 0).get? r.position = some r.text
          ∧ r.score = queryBestMatch (fun a b : ℚ => a * b)
              ((split [] 0).map (fun _ => (0 : ℚ))) ((fun _ => (0 : ℚ)) r.text) :=
  detectChanges_ordered (fun _ => (0 : ℚ)) (fun a b => a * b) [] [] 0 1
    (by decide) (by decide)

/-- C4: with an empty similarity index every query returns the sentinel
no-match score, and when the old document yields zero chunks every new
chunk surviving the minimum-length filter appears in the output carrying
the sentinel score. -/
theorem detectChanges_empty_index {V : Type} (E : Text → V) (sim : V → V → ℚ)
    (oldD newD : Text) (m : Nat) (t : ℚ)
    (hold : split oldD m = []) (h0 : 0 ≤ t) (h1 : t ≤ 1) :
    (∀ v : V, queryBestMatch sim [] v = noMatchScore)
    ∧ ∃ rs, detectChanges E sim oldD newD m t = Except.ok rs
        ∧ rs.map (fun r => r.text) = split newD m
        ∧ ∀ r ∈ rs, r.score = noMatchScore := by
  have hall := scoreChunks_empty_index E sim (split newD m) 0
  have hfil : (scoreChunks E sim ([] : List V) 0 (split newD m)).filter
      (fun r => decide (r.score < t)) = scoreChunks E sim ([] : List V) 0 (split newD m) := by
    apply List.filter_eq_self.mpr
    intro r hr
    rw [decide_eq_true_eq, hall.2 r hr]
    show (-1 : ℚ) < t
    linarith
  refine ⟨fun v => rfl, scoreChunks E sim ([] : List V) 0 (split newD m), ?_, hall.1, hall.2⟩
  rw [detectChanges_ok E sim oldD newD m t h0 h1, hold, List.map_nil, hfil]

theorem detectChanges_empty_index_witness :
    (∀ v : ℚ, queryBestMatch (fun a b : ℚ => a * b) [] v = noMatchScore)
    ∧ ∃ rs, detectChanges (fun _ => (0 : ℚ)) (fun a b : ℚ => a * b)
          [] [ 'x', 'y' ] 1 1 = Except.ok rs
        ∧ rs.map (fun r => r.text) = split [ 'x', 'y' ] 1
        ∧ ∀ r ∈ rs, r.score = noMatchScore :=
  detectChanges_empty_index (fun _ => (0 : ℚ)) (fun a b => a * b) [] [ 'x', 'y' ] 1 1
    (by decide) (by decide) (by decide)

/-- C5: threshold monotonicity — for thresholds t1 ≤ t2 inside [0,1] on
fixed inputs, the change count at t1 is at most the change count at t2. -/
theorem detectChanges_threshold_monotone {V : Type} (E : Text → V) (sim : V → V → ℚ)
    (oldD newD : Text) (m : Nat) (t1 t2 : ℚ)
    (h0 : 0 ≤ t1) (h12 : t1 ≤ t2) (h2 : t2 ≤ 1) :
    ∃ rs1 rs2, detectChanges E sim oldD newD m t1 = Except.ok rs1
      ∧ detectChanges E sim oldD newD m t2 = Except.ok rs2
      ∧ rs1.length ≤ rs2.length := by
  refine ⟨_, _, detectChanges_ok E sim oldD newD m t1 h0 (le_trans h12 h2),
    detectChanges_ok E sim oldD newD m t2 (le_trans h0 h12) h2, ?_⟩
  apply List.Sublist.length_le
  apply List.monotone_filter_right
  intro r hr
  rw [decide_eq_true_eq] at hr ⊢
  exact lt_of_lt_of_le hr h12

theorem detectChanges_threshold_monotone_witness :
    ∃ rs1 rs2, detectChanges (fun _ => (0 : ℚ)) (fun a b : ℚ => a * b) [] [] 0 0 = Except.ok rs1
      ∧ detectChanges (fun _ => (0 : ℚ)) (fun a b : ℚ => a * b) [] [] 0 1 = Except.ok rs2
      ∧ rs1.length ≤ rs2.length :=
  detectChanges_threshold_monotone (fun _ => (0 : ℚ)) (fun a b => a * b) [] [] 0 0 1
    (by decide) (by decide) (by decide)

/-- C6 counterexample: at the concrete threshold -1, which is strictly less
than 1, the self-comparison is rejected as an invalid configuration (the
range check of §7 runs first) instead of returning an empty change list. -/
theorem detectChanges_self_comparison_cex :
    detectChanges (fun t : Text => (t.length : ℚ)) (fun a b : ℚ => if a = b then 1 else 0)
        [ 'a' ] [ 'a' ] 0 (-1) = Except.error DetectError.invalidConfiguration
    ∧ ((-1 : ℚ) < 1)
    ∧ ¬ detectChanges (fun t : Text => (t.length : ℚ)) (fun a b : ℚ => if a = b then 1 else 0)
        [ 'a' ] [ 'a' ] 0 (-1) = Except.ok [] := by
  have herr : detectChanges (fun t : Text => (t.length : ℚ))
      (fun a b : ℚ => if a = b then 1 else 0) [ 'a' ] [ 'a' ] 0 (-1)
      = Except.error DetectError.invalidConfiguration := by
    unfold detectChanges
    rw [if_pos (Or.inl (by norm_num))]
  refine ⟨herr, by norm_num, ?_⟩
  rw [herr]
  intro hc
  exact Except.noConfusion hc

/-- C6 (amended): self-comparison with a threshold in [0,1), under a
similarity scoring identical embeddings at 1 (the cosine self-similarity of
the spec), yields the empty change list. -/
theorem detectChanges_self_comparison {V : Type} (E : Text → V) (sim : V → V → ℚ)
    (hsim : ∀ v, sim v v = 1) (X : Text) (m : Nat) (t : ℚ) (h0 : 0 ≤ t) (h1 : t < 1) :
    detectChanges E sim X X m t = Except.ok [] := by
  rw [detectChanges_ok E sim X X m t h0 (le_of_lt h1)]
  have hfil : (scoreChunks E sim ((split X m).map E) 0 (split X m)).filter
      (fun r => decide (r.score < t)) = [] := by
    apply List.filter_eq_nil_iff.mpr
    intro r hr
    obtain ⟨_, hs, _, hmem⟩ := scoreChunks_mem E sim ((split X m).map E) (split X m) 0 r hr
    have hge : sim (E r.text) (E r.text) ≤ queryBestMatch sim ((split X m).map E) (E r.text) :=
      queryBestMatch_ge sim _ _ _ (List.mem_map_of_mem E hmem)
    rw [hsim] at hge
    rw [decide_eq_true_eq, hs]
    push_neg
    linarith
  rw [hfil]

theorem detectChanges_self_comparison_witness :
    detectChanges (fun t : Text => (t.length : ℚ)) (fun a b : ℚ => if a = b then 1 else 0)
      [ 'a', 'b' ] [ 'a', 'b' ] 1 0 = Except.ok [] :=
  detectChanges_self_comparison (fun t : Text => (t.length : ℚ))
    (fun a b : ℚ => if a = b then 1 else 0) (fun v => if_pos rfl)
    [ 'a', 'b' ] 1 0 (by decide) (by decide)

/-- C7: an out-of-range threshold is rejected with InvalidConfiguration,
and the rejection is independent of the documents and the minimum chunk
length, so no chunking, embedding, or scoring contributes to the outcome
(minChunkLength, a natural number, has its whole domain valid). -/
theorem detectChanges_invalid_config {V : Type} (E : Text → V) (sim : V → V → ℚ)
    (oldD newD : Text) (m : Nat) (t : ℚ) (h : t < 0 ∨ 1 < t) :
    detectChanges E sim oldD newD m t = Except.error DetectError.invalidConfiguration
    ∧ detectChanges E sim oldD newD m t = detectChanges E sim [] [] 0 t := by
  have h1 : detectChanges E sim oldD newD m t
      = Except.error DetectError.invalidConfiguration := by
    unfold detectChanges
    rw [if_pos h]
  have h2 : detectChanges E sim [] [] 0 t
      = Except.error DetectError.invalidConfiguration := by
    unfold detectChanges
    rw [if_pos h]
  exact ⟨h1, h1.trans h2.symm⟩

theorem detectChanges_invalid_config_witness :
    detectChanges (fun _ => (0 : ℚ)) (fun a b : ℚ => a * b) [ 'a' ] [ 'b' ] 3 2
      = Except.error DetectError.invalidConfiguration
    ∧ detectChanges (fun _ => (0 : ℚ)) (fun a b : ℚ => a * b) [ 'a' ] [ 'b' ] 3 2
      = detectChanges (fun _ => (0 : ℚ)) (fun a b : ℚ => a * b) [] [] 0 2 :=
  detectChanges_invalid_config (fun _ => (0 : ℚ)) (fun a b => a * b) [ 'a' ] [ 'b' ] 3 2
    (Or.inr (by decide))
